import Mathlib

/-!
# Verification development for the ClaimsRAG repository

Shallow embedding of the retrieval / grounding / conversation-agent logic of
the ClaimsRAG service (`app.py`, `agent.py`, `aadhaar_mask.py`,
`history_db.py`) together with proofs about the behaviour of that logic.

Modelling conventions:
* Python strings are modelled as `List Char` (`PyStr`); Python string
  operations (`strip`, slicing, `split`, `find`, `rfind`, `capitalize`,
  `len`) are modelled by the corresponding list functions.  The regex
  character classes `\d` and `\w` are modelled over their ASCII meaning
  (`Char.isDigit`, alphanumeric-or-underscore).
* Python floats are modelled exactly: embedding-vector coordinates are
  rationals, derived similarity scores are real numbers (the Python code
  additionally rounds scores to four decimals for display only).
* External collaborators (the sentence-transformer embedder, the JSON
  parser and the Azure chat completions used by the agent) are parameters
  of the corresponding functions: the theorems quantify over every
  behaviour of the collaborator, matching the spec's treatment of them as
  opaque collaborators.
-/

namespace ClaimsRAG

/-- Python strings are modelled as lists of characters. -/
abbrev PyStr := List Char

/-! ## PII masking — `src/aadhaar_mask.py`

`mask_aadhaar` is `re.sub(r"\b\d{12}\b", lambda m: f"XXXX-XXXX-{m.group()[8:]}", text)`.
A `\b` word boundary sits between a word character (`[A-Za-z0-9_]`) and a
non-word character (or the string edge), so the pattern matches a run of
twelve digits whose neighbouring characters (if any) are non-word
characters.  `re.sub` scans left to right and resumes scanning right after
each replaced match.
-/

/-- The regex word-character class `\w` (ASCII): alphanumeric or underscore. -/
def wordChar (c : Char) : Bool := c.isAlphanum || c = '_'

/-- `\b` holds before the digit run: the previous character (if any) is a
non-word character.  `none` models the start of the string. -/
def boundaryBefore : Option Char → Bool
  | none => true
  | some c => !(wordChar c)

/-- The first twelve characters of `l` exist and are all digits
(the `\d{12}` part of the pattern). -/
def digits12 (l : PyStr) : Bool :=
  decide (12 ≤ l.length) && (l.take 12).all Char.isDigit

/-- `\b` holds after the twelve digits: the string ends there or continues
with a non-word character. -/
def afterBoundary (l : PyStr) : Bool :=
  match l.drop 12 with
  | [] => true
  | c :: _ => !(wordChar c)

/-- `\b\d{12}\b` matches at the current scan position, where `prev` is the
character preceding the position (`none` at the start of the string). -/
def matchAt (prev : Option Char) (l : PyStr) : Bool :=
  boundaryBefore prev && digits12 l && afterBoundary l

/-- Replacement text for a matched run `r`:
`f"XXXX-XXXX-{m.group()[8:]}"` (the prefix is spelt as an explicit
character list; see the example below). -/
def maskRun (r : PyStr) : PyStr :=
  'X' :: 'X' :: 'X' :: 'X' :: '-' :: 'X' :: 'X' :: 'X' :: 'X' :: '-' :: r.drop 8

example (r : PyStr) : maskRun r = "XXXX-XXXX-".toList ++ r.drop 8 := rfl

/-- The `re.sub` scan.  `fuel` is an upper bound on the remaining length
(it makes the recursion structural; `maskGo` is always called with
`l.length ≤ fuel`, see `maskGo_fuel`).  On a match the scan emits the
replacement and resumes after the matched run; the character preceding the
resume position in the original string is the last matched digit. -/
def maskGo : ℕ → Option Char → PyStr → PyStr
  | 0, _, _ => []
  | _ + 1, _, [] => []
  | fuel + 1, prev, c :: rest =>
    if matchAt prev (c :: rest) then
      maskRun ((c :: rest).take 12) ++
        maskGo fuel (some ((c :: rest).getD 11 c)) (rest.drop 11)
    else
      c :: maskGo fuel (some c) rest

/-- `mask_aadhaar` from `src/aadhaar_mask.py`. -/
def mask_aadhaar (text : PyStr) : PyStr := maskGo text.length none text

/-- Sanity: the unit-test example from `aadhaar_mask.py.__main__`. -/
example :
    mask_aadhaar "My Aadhaar number is 123412345678 and should be masked".toList
      = "My Aadhaar number is XXXX-XXXX-5678 and should be masked".toList := by
  decide

example : mask_aadhaar "123412345678".toList = "XXXX-XXXX-5678".toList := by decide

/-- A 13-digit run is not matched (no interior word boundary). -/
example : mask_aadhaar "1234123456789".toList = "1234123456789".toList := by decide

/-- The scan with its canonical fuel. -/
def maskFrom (prev : Option Char) (l : PyStr) : PyStr := maskGo l.length prev l

theorem maskGo_fuel :
    ∀ fuel₁ fuel₂ (prev : Option Char) (l : PyStr),
      l.length ≤ fuel₁ → l.length ≤ fuel₂ → maskGo fuel₁ prev l = maskGo fuel₂ prev l := by
  intro fuel₁
  induction fuel₁ with
  | zero =>
    intro fuel₂ prev l h₁ _
    have : l = [] := List.length_eq_zero.mp (Nat.le_zero.mp h₁)
    subst this
    cases fuel₂ <;> rfl
  | succ f ih =>
    intro fuel₂ prev l h₁ h₂
    cases l with
    | nil => cases fuel₂ <;> rfl
    | cons c rest =>
      cases fuel₂ with
      | zero => simp at h₂
      | succ g =>
        simp only [List.length_cons, Nat.succ_le_succ_iff] at h₁ h₂
        by_cases hm : matchAt prev (c :: rest) = true
        · simp only [maskGo, hm, if_true]
          have hd : (rest.drop 11).length ≤ f := le_trans (by simp) h₁
          have hd2 : (rest.drop 11).length ≤ g := le_trans (by simp) h₂
          rw [ih g _ _ hd hd2]
        · simp only [maskGo, hm, if_false, Bool.false_eq_true]
          rw [ih g _ _ h₁ h₂]

theorem mask_eq_maskFrom (l : PyStr) : mask_aadhaar l = maskFrom none l := rfl

theorem maskFrom_nil (prev : Option Char) : maskFrom prev [] = [] := rfl

theorem maskFrom_copy {prev : Option Char} {c : Char} {rest : PyStr}
    (h : matchAt prev (c :: rest) = false) :
    maskFrom prev (c :: rest) = c :: maskFrom (some c) rest := by
  simp only [maskFrom, List.length_cons, maskGo, h, Bool.false_eq_true, if_false]

theorem maskFrom_match {prev : Option Char} {c : Char} {rest : PyStr}
    (h : matchAt prev (c :: rest) = true) :
    maskFrom prev (c :: rest) =
      maskRun ((c :: rest).take 12) ++
        maskFrom (some ((c :: rest).getD 11 c)) (rest.drop 11) := by
  simp only [maskFrom, List.length_cons, maskGo, h, if_true]
  rw [maskGo_fuel rest.length (rest.drop 11).length _ _ (by simp) le_rfl]

/-- The character that precedes the scan position reached after consuming
`a`, when the scan was entered with preceding character `prev`. -/
def prevOf (prev : Option Char) (a : PyStr) : Option Char :=
  match a with
  | [] => prev
  | x :: xs => some (xs.getLastD x)

@[simp] theorem prevOf_nil (prev : Option Char) : prevOf prev [] = prev := rfl

theorem prevOf_cons (prev : Option Char) (c : Char) (xs : PyStr) :
    prevOf prev (c :: xs) = prevOf (some c) xs := by
  cases xs with
  | nil => rfl
  | cons x xs => simp only [prevOf, List.getLastD_cons]

/-- `noMatchFrom prev l = true` iff the regex matches at no position of `l`
(scanning with preceding character `prev`). -/
def noMatchFrom : Option Char → PyStr → Bool
  | _, [] => true
  | prev, c :: rest => !(matchAt prev (c :: rest)) && noMatchFrom (some c) rest

theorem matchAt_nil (prev : Option Char) : matchAt prev [] = false := by
  simp [matchAt, digits12]

/-- If the regex matches nowhere, the `re.sub` scan is the identity. -/
theorem maskFrom_of_noMatch :
    ∀ (l : PyStr) (prev : Option Char), noMatchFrom prev l = true → maskFrom prev l = l := by
  intro l
  induction l with
  | nil => intro prev _; rfl
  | cons c rest ih =>
    intro prev h
    simp only [noMatchFrom, Bool.and_eq_true, Bool.not_eq_true'] at h
    rw [maskFrom_copy h.1, ih _ h.2]

/-- A digit is a word character. -/
theorem wordChar_of_isDigit {c : Char} (h : c.isDigit = true) : wordChar c = true := by
  simp [wordChar, Char.isAlphanum, h]

/-- No-match at every position, in positional form. -/
theorem noMatch_positions :
    ∀ (a : PyStr) (prev : Option Char) (l t : PyStr), noMatchFrom prev l = true →
      l = a ++ t → matchAt (prevOf prev a) t = false := by
  intro a
  induction a with
  | nil =>
    intro prev l t h he
    simp only [List.nil_append] at he
    subst he
    simp only [prevOf_nil]
    cases l with
    | nil => exact matchAt_nil prev
    | cons c rest =>
      simp only [noMatchFrom, Bool.and_eq_true, Bool.not_eq_true'] at h
      exact h.1
  | cons x a' ih =>
    intro prev l t h he
    subst he
    simp only [noMatchFrom, Bool.and_eq_true, Bool.not_eq_true'] at h
    rw [prevOf_cons]
    exact ih (some x) _ t h.2 rfl

/-! Helper lemmas about `matchAt`. -/

theorem digits12_cons (c : Char) (l : PyStr) :
    digits12 (c :: l) =
      (decide (12 ≤ l.length + 1) && (c.isDigit && (l.take 11).all Char.isDigit)) := rfl

theorem afterBoundary_cons (c : Char) (l : PyStr) :
    afterBoundary (c :: l) =
      (match l.drop 11 with | [] => true | e :: _ => !(wordChar e)) := rfl

theorem matchAt_eq_true {prev : Option Char} {l : PyStr} :
    matchAt prev l = true ↔
      boundaryBefore prev = true ∧ digits12 l = true ∧ afterBoundary l = true := by
  simp [matchAt, Bool.and_eq_true, and_assoc]

theorem matchAt_head_not_digit {x : Char} {xs : PyStr} (prev : Option Char)
    (h : x.isDigit = false) : matchAt prev (x :: xs) = false := by
  simp [matchAt, digits12_cons, h]

theorem matchAt_short {l : PyStr} (prev : Option Char) (h : l.length < 12) :
    matchAt prev l = false := by
  simp [matchAt, digits12, Nat.not_le.mpr h]

theorem matchAt_nondigit_at {l : PyStr} {e : Char} (prev : Option Char) (i : ℕ)
    (hi : i < 12) (hget : l[i]? = some e) (he : e.isDigit = false) :
    matchAt prev l = false := by
  rw [Bool.eq_false_iff]
  intro hc
  rcases matchAt_eq_true.mp hc with ⟨-, hd, -⟩
  simp only [digits12, Bool.and_eq_true, List.all_eq_true, decide_eq_true_eq] at hd
  have hmem : e ∈ l.take 12 := by
    have : (l.take 12)[i]? = some e := by
      rwa [List.getElem?_take_of_lt hi]
    exact List.getElem?_mem this
  have := hd.2 e hmem
  rw [he] at this
  exact Bool.false_ne_true this

/-- If the first `n` characters of the scan's output are digits, then the
scan copied them verbatim: they are the first `n` input characters and the
rest of the output is the scan of the rest of the input. -/
theorem maskFrom_digit_take :
    ∀ (n : ℕ) (l : PyStr) (prev : Option Char),
      ((maskFrom prev l).take n).all Char.isDigit = true →
      n ≤ (maskFrom prev l).length →
      n ≤ l.length ∧
        maskFrom prev l = l.take n ++ maskFrom (prevOf prev (l.take n)) (l.drop n) := by
  intro n
  induction n with
  | zero => intro l prev _ _; exact ⟨Nat.zero_le _, by simp⟩
  | succ n ih =>
    intro l prev hall hlen
    cases l with
    | nil => rw [maskFrom_nil] at hlen; simp at hlen
    | cons c rest =>
      by_cases hm : matchAt prev (c :: rest) = true
      · rw [maskFrom_match hm] at hall
        simp [maskRun, List.take_succ_cons, List.all_cons] at hall
      · have hm' : matchAt prev (c :: rest) = false := Bool.eq_false_iff.mpr hm
        rw [maskFrom_copy hm'] at hall hlen ⊢
        simp only [List.take_succ_cons, List.all_cons, Bool.and_eq_true] at hall
        simp only [List.length_cons, Nat.succ_le_succ_iff] at hlen
        obtain ⟨hn, hdec⟩ := ih rest (some c) hall.2 hlen
        refine ⟨Nat.succ_le_succ hn, ?_⟩
        rw [List.take_succ_cons, List.drop_succ_cons, prevOf_cons]
        rw [List.cons_append]
        exact congrArg (c :: ·) hdec

theorem exists_four {xs : PyStr} (h : xs.length = 4) :
    ∃ a b c d, xs = [a, b, c, d] := by
  rcases xs with _ | ⟨a, _ | ⟨b, _ | ⟨c, _ | ⟨d, _ | ⟨e, t⟩⟩⟩⟩⟩
  all_goals
    first
    | exact ⟨_, _, _, _, rfl⟩
    | (simp only [List.length_cons, List.length_nil] at h; omega)

/-- The scan never matches inside an emitted replacement block
`XXXX-XXXX-⟨four digits⟩`, provided the text following the block does not
begin with a digit and itself admits no match (scanning from the block's
last character). -/
theorem noMatch_block (a b c d : Char) (tail : PyStr) (prev' : Option Char)
    (htail : ∀ e t, tail = e :: t → e.isDigit = false)
    (hnm : noMatchFrom (some d) tail = true) :
    noMatchFrom prev'
      ('X' :: 'X' :: 'X' :: 'X' :: '-' :: 'X' :: 'X' :: 'X' :: 'X' :: '-' ::
        a :: b :: c :: d :: tail) = true := by
  have hX : ('X' : Char).isDigit = false := by decide
  have hH : ('-' : Char).isDigit = false := by decide
  cases tail with
  | nil =>
    simp only [noMatchFrom, Bool.and_eq_true, Bool.not_eq_true']
    refine ⟨matchAt_head_not_digit _ hX, matchAt_head_not_digit _ hX,
      matchAt_head_not_digit _ hX, matchAt_head_not_digit _ hX,
      matchAt_head_not_digit _ hH, matchAt_head_not_digit _ hX,
      matchAt_head_not_digit _ hX, matchAt_head_not_digit _ hX,
      matchAt_head_not_digit _ hX, matchAt_head_not_digit _ hH,
      matchAt_short _ (by simp), matchAt_short _ (by simp),
      matchAt_short _ (by simp), matchAt_short _ (by simp), trivial⟩
  | cons e t =>
    have he : e.isDigit = false := htail e t rfl
    simp only [noMatchFrom, Bool.and_eq_true, Bool.not_eq_true'] at hnm ⊢
    refine ⟨matchAt_head_not_digit _ hX, matchAt_head_not_digit _ hX,
      matchAt_head_not_digit _ hX, matchAt_head_not_digit _ hX,
      matchAt_head_not_digit _ hH, matchAt_head_not_digit _ hX,
      matchAt_head_not_digit _ hX, matchAt_head_not_digit _ hX,
      matchAt_head_not_digit _ hX, matchAt_head_not_digit _ hH,
      matchAt_nondigit_at _ 4 (by omega)
        (by simp : (a :: b :: c :: d :: e :: t)[4]? = some e) he,
      matchAt_nondigit_at _ 3 (by omega)
        (by simp : (b :: c :: d :: e :: t)[3]? = some e) he,
      matchAt_nondigit_at _ 2 (by omega)
        (by simp : (c :: d :: e :: t)[2]? = some e) he,
      matchAt_nondigit_at _ 1 (by omega)
        (by simp : (d :: e :: t)[1]? = some e) he,
      hnm.1, hnm.2⟩

/-- Core safety property of the scan: its output admits no match anywhere,
for any scan-entry boundary state at least as permissive as the output's.
(`prev` is the character preceding the scanned text, `prev'` the character
that will precede the output when the output is rescanned.) -/
theorem noMatchFrom_maskFrom :
    ∀ (n : ℕ) (l : PyStr), l.length ≤ n → ∀ (prev prev' : Option Char),
      (boundaryBefore prev' = true → boundaryBefore prev = true) →
      noMatchFrom prev' (maskFrom prev l) = true := by
  intro n
  induction n with
  | zero =>
    intro l hl prev prev' _
    have : l = [] := List.length_eq_zero.mp (Nat.le_zero.mp hl)
    subst this
    rfl
  | succ n ih =>
    intro l hl prev prev' hR
    cases l with
    | nil => rfl
    | cons c rest =>
      simp only [List.length_cons, Nat.succ_le_succ_iff] at hl
      by_cases hm : matchAt prev (c :: rest) = true
      · -- match branch: the output starts with a replacement block
        rcases matchAt_eq_true.mp hm with ⟨hbb, hdg, hab⟩
        rw [digits12_cons, Bool.and_eq_true, Bool.and_eq_true,
          decide_eq_true_eq] at hdg
        obtain ⟨hlen12, hcd, hall11⟩ := hdg
        have h11 : 11 ≤ rest.length := by omega
        have htk : (c :: rest).take 12 = c :: rest.take 11 := rfl
        have hlen4 : ((rest.take 11).drop 7).length = 4 := by
          simp [List.length_drop, List.length_take]
          omega
        obtain ⟨a, b, c', d, habcd⟩ := exists_four hlen4
        rw [maskFrom_match hm, htk]
        have hblock :
            maskRun (c :: rest.take 11) =
              'X' :: 'X' :: 'X' :: 'X' :: '-' :: 'X' :: 'X' :: 'X' :: 'X' :: '-' ::
                a :: b :: c' :: d :: [] := by
          simp only [maskRun]
          have : (c :: rest.take 11).drop 8 = (rest.take 11).drop 7 := rfl
          rw [this, habcd]
        rw [hblock]
        simp only [List.cons_append, List.nil_append]
        -- d is a digit, so the boundary-state obligation for the tail is vacuous
        have hd_digit : d.isDigit = true := by
          have hmem : d ∈ rest.take 11 := by
            have : d ∈ (rest.take 11).drop 7 := by rw [habcd]; simp
            exact List.mem_of_mem_drop this
          exact List.all_eq_true.mp hall11 d hmem
        have hRd : boundaryBefore (some d) = true →
            boundaryBefore (some ((c :: rest).getD 11 c)) = true := by
          intro hb
          exfalso
          simp only [boundaryBefore, Bool.not_eq_true'] at hb
          rw [wordChar_of_isDigit hd_digit] at hb
          simp at hb
        have hrec : noMatchFrom (some d)
            (maskFrom (some ((c :: rest).getD 11 c)) (rest.drop 11)) = true :=
          ih (rest.drop 11) (le_trans (by simp) hl) _ _ hRd
        refine noMatch_block a b c' d _ prev' ?_ hrec
        -- the text after the block does not begin with a digit
        intro e t het
        rw [afterBoundary_cons] at hab
        cases hdrop : rest.drop 11 with
        | nil => rw [hdrop, maskFrom_nil] at het; exact absurd het (List.cons_ne_nil _ _).symm
        | cons e0 t0 =>
          rw [hdrop] at hab
          simp only [Bool.not_eq_true'] at hab
          have he0 : e0.isDigit = false := by
            cases hde : e0.isDigit with
            | false => rfl
            | true => rw [wordChar_of_isDigit hde] at hab; simp at hab
          have hcopy : matchAt (some ((c :: rest).getD 11 c)) (e0 :: t0) = false :=
            matchAt_head_not_digit _ he0
          rw [hdrop, maskFrom_copy hcopy] at het
          injection het with h1 _
          rw [← h1]; exact he0
      · have hm' : matchAt prev (c :: rest) = false := Bool.eq_false_iff.mpr hm
        rw [maskFrom_copy hm']
        simp only [noMatchFrom, Bool.and_eq_true, Bool.not_eq_true']
        refine ⟨?_, ih rest hl (some c) (some c) (fun h => h)⟩
        -- a match at the head of the output would force one at the head of the input
        rw [Bool.eq_false_iff]
        intro hP
        rcases matchAt_eq_true.mp hP with ⟨hbb', hdg', hab'⟩
        rw [digits12_cons, Bool.and_eq_true, Bool.and_eq_true,
          decide_eq_true_eq] at hdg'
        obtain ⟨hlen12', hcd', hall11'⟩ := hdg'
        have h11' : 11 ≤ (maskFrom (some c) rest).length := by omega
        obtain ⟨h11r, hdec⟩ :=
          maskFrom_digit_take 11 rest (some c) hall11' h11'
        have htake_len : (rest.take 11).length = 11 := by
          simp [List.length_take]; omega
        have htk_eq : (maskFrom (some c) rest).take 11 = rest.take 11 := by
          rw [hdec, List.take_append_eq_append_take, List.take_of_length_le (by omega),
            htake_len]
          simp
        apply hm
        rw [matchAt_eq_true]
        refine ⟨hR hbb', ?_, ?_⟩
        · rw [digits12_cons, Bool.and_eq_true, Bool.and_eq_true, decide_eq_true_eq]
          refine ⟨by omega, hcd', ?_⟩
          rw [← htk_eq]; exact hall11'
        · -- after-boundary transfers from the output back to the input
          rw [afterBoundary_cons] at hab' ⊢
          have hdrop_out : (maskFrom (some c) rest).drop 11 =
              maskFrom (prevOf (some c) (rest.take 11)) (rest.drop 11) := by
            rw [hdec, List.drop_append_eq_append_drop, List.drop_of_length_le (by omega),
              htake_len]
            simp
          rw [hdrop_out] at hab'
          cases hdrop : rest.drop 11 with
          | nil => exact hab'.symm ▸ rfl
          | cons e0 t0 =>
            rw [hdrop] at hab'
            by_cases hm0 : matchAt (prevOf (some c) (rest.take 11)) (e0 :: t0) = true
            · rw [maskFrom_match hm0] at hab'
              simp [maskRun, wordChar] at hab'
            · rw [maskFrom_copy (Bool.eq_false_iff.mpr hm0)] at hab'
              exact hab'

/-- Masking is idempotent, as a helper lemma: the output of the scan
contains no match, so a second scan copies it unchanged. -/
theorem mask_aadhaar_idem (l : PyStr) :
    mask_aadhaar (mask_aadhaar l) = mask_aadhaar l := by
  rw [mask_eq_maskFrom, mask_eq_maskFrom]
  exact maskFrom_of_noMatch _ none
    (noMatchFrom_maskFrom l.length l le_rfl none none (fun h => h))

/-- `b` is empty or begins with a non-word character. -/
def headNonWord : PyStr → Bool
  | [] => true
  | e :: _ => !(wordChar e)

/-- `l` decomposes as `a ++ r ++ b` where `r` is a 12-digit run bounded by
word boundaries — exactly the occurrences `re.sub(r"\b\d{12}\b", …)`
replaces. -/
def BoundedRunAt (l a r b : PyStr) : Prop :=
  l = a ++ r ++ b ∧ r.length = 12 ∧ r.all Char.isDigit = true ∧
    boundaryBefore (prevOf none a) = true ∧ headNonWord b = true

instance (l a r b : PyStr) : Decidable (BoundedRunAt l a r b) := by
  unfold BoundedRunAt
  infer_instance

/-- `l` contains some 12-digit run bounded by word boundaries. -/
def HasBoundedRun (l : PyStr) : Prop := ∃ a r b, BoundedRunAt l a r b

theorem afterBoundary_eq_headNonWord (l : PyStr) :
    afterBoundary l = headNonWord (l.drop 12) := by
  cases h : l.drop 12 with
  | nil => simp [afterBoundary, headNonWord, h]
  | cons e t => simp [afterBoundary, headNonWord, h]

/-- A bounded run induces a regex match at its position. -/
theorem boundedRunAt_matchAt {l a r b : PyStr} (h : BoundedRunAt l a r b) :
    matchAt (prevOf none a) (r ++ b) = true := by
  obtain ⟨-, hlen, hdig, hbb, hhead⟩ := h
  rw [matchAt_eq_true]
  refine ⟨hbb, ?_, ?_⟩
  · simp only [digits12, Bool.and_eq_true, decide_eq_true_eq]
    constructor
    · simp [hlen]
    · rw [← hlen, List.take_left]
      exact hdig
  · rw [afterBoundary_eq_headNonWord, ← hlen, List.drop_left]
    exact hhead

/-- The masked output never contains a bounded 12-digit run. -/
theorem not_hasBoundedRun_mask (l : PyStr) : ¬ HasBoundedRun (mask_aadhaar l) := by
  rintro ⟨a, r, b, hbr⟩
  have hm := boundedRunAt_matchAt hbr
  have hnm : noMatchFrom none (mask_aadhaar l) = true :=
    noMatchFrom_maskFrom l.length l le_rfl none none (fun h => h)
  have heq : mask_aadhaar l = a ++ (r ++ b) := by
    rw [hbr.1, List.append_assoc]
  have := noMatch_positions a none (mask_aadhaar l) (r ++ b) hnm heq
  rw [hm] at this
  simp at this

/-! Substring containment, as an executable predicate. -/

/-- `needle` is a prefix of `hay` (Python `hay.startswith(needle)`). -/
def startsWith : PyStr → PyStr → Bool
  | [], _ => true
  | _ :: _, [] => false
  | a :: as, b :: bs => a == b && startsWith as bs

/-- `needle` occurs contiguously somewhere in `hay`
(Python `needle in hay`). -/
def containsSeg (needle : PyStr) : PyStr → Bool
  | [] => startsWith needle []
  | c :: rest => startsWith needle (c :: rest) || containsSeg needle rest

theorem startsWith_append_self : ∀ (n t : PyStr), startsWith n (n ++ t) = true := by
  intro n
  induction n with
  | nil => intro t; rfl
  | cons a as ih => intro t; simp [startsWith, ih t]

theorem containsSeg_of_startsWith {n l : PyStr} (h : startsWith n l = true) :
    containsSeg n l = true := by
  cases l with
  | nil => exact h
  | cons c rest => simp [containsSeg, h]

theorem containsSeg_cons {n t : PyStr} (c : Char) (h : containsSeg n t = true) :
    containsSeg n (c :: t) = true := by
  simp [containsSeg, h]

theorem containsSeg_append_left {n t : PyStr} (l : PyStr) (h : containsSeg n t = true) :
    containsSeg n (l ++ t) = true := by
  induction l with
  | nil => exact h
  | cons c cs ih => exact containsSeg_cons c ih

theorem prevOf_ne_nil {xs : PyStr} (h : xs ≠ []) (p q : Option Char) :
    prevOf p xs = prevOf q xs := by
  cases xs with
  | nil => exact absurd rfl h
  | cons x xs => rfl

theorem prevOf_drop :
    ∀ (k : ℕ) (xs : PyStr) (p : Option Char), xs.drop k ≠ [] →
      prevOf p (xs.drop k) = prevOf p xs := by
  intro k
  induction k with
  | zero => intro xs p _; rw [List.drop_zero]
  | succ k ih =>
    intro xs p h
    cases xs with
    | nil => simp at h
    | cons x xs =>
      rw [List.drop_succ_cons] at h ⊢
      have hxs : xs ≠ [] := by
        intro hx; rw [hx] at h; simp at h
      rw [ih xs p h, prevOf_ne_nil hxs p (some x), prevOf_cons]

theorem getLastD_mem_cons : ∀ (xs : PyStr) (x : Char), xs.getLastD x ∈ x :: xs := by
  intro xs
  induction xs with
  | nil => intro x; simp [List.getLastD]
  | cons y ys ih =>
    intro x
    rw [List.getLastD_cons]
    exact List.mem_cons_of_mem x (ih y)

/-- At the head of the scanned text, a matched run is emitted as its mask. -/
theorem maskFrom_head_run {prev : Option Char} {r b : PyStr}
    (hlen : r.length = 12) (hm : matchAt prev (r ++ b) = true) :
    containsSeg (maskRun r) (maskFrom prev (r ++ b)) = true := by
  cases r with
  | nil => simp at hlen
  | cons r0 r' =>
    rw [List.cons_append] at hm ⊢
    rw [maskFrom_match hm]
    have htk : (r0 :: (r' ++ b)).take 12 = r0 :: r' := by
      rw [← List.cons_append, ← hlen, List.take_left]
    rw [htk]
    exact containsSeg_of_startsWith (startsWith_append_self _ _)

/-- Every bounded 12-digit run in the input is replaced: the scan's output
contains the run's masked form. -/
theorem maskFrom_hits_run :
    ∀ (n : ℕ) (a : PyStr), a.length ≤ n → ∀ (prev : Option Char) (r b : PyStr),
      r.length = 12 → matchAt (prevOf prev a) (r ++ b) = true →
      containsSeg (maskRun r) (maskFrom prev (a ++ r ++ b)) = true := by
  intro n
  induction n with
  | zero =>
    intro a ha prev r b hlen hm
    have : a = [] := List.length_eq_zero.mp (Nat.le_zero.mp ha)
    subst this
    rw [List.nil_append]
    exact maskFrom_head_run hlen (by simpa using hm)
  | succ n ih =>
    intro a ha prev r b hlen hm
    cases a with
    | nil =>
      rw [List.nil_append]
      exact maskFrom_head_run hlen (by simpa using hm)
    | cons c a' =>
      simp only [List.length_cons, Nat.succ_le_succ_iff] at ha
      by_cases hmh : matchAt prev (c :: (a' ++ r ++ b)) = true
      · -- a match at the head of `a`: it must lie strictly inside `a`
        have h12 : 12 ≤ a'.length := by
          by_contra hlt
          push_neg at hlt
          -- the head match would swallow the character before `r`,
          -- which the run's own boundary says is a non-word character
          rcases matchAt_eq_true.mp hmh with ⟨-, hdg, -⟩
          simp only [digits12, Bool.and_eq_true, List.all_eq_true,
            decide_eq_true_eq] at hdg
          have hg : (a').getLastD c ∈ c :: a' := getLastD_mem_cons a' c
          have hmem : (a').getLastD c ∈ (c :: (a' ++ r ++ b)).take 12 := by
            have hform : (c :: (a' ++ r ++ b)).take 12 =
                (c :: a') ++ (r ++ b).take (12 - (c :: a').length) := by
              rw [show c :: (a' ++ r ++ b) = (c :: a') ++ (r ++ b) by simp,
                List.take_append_eq_append_take,
                List.take_of_length_le (by simp; omega)]
            rw [hform]
            exact List.mem_append_left _ hg
          have hdigit := hdg.2 _ hmem
          rcases matchAt_eq_true.mp hm with ⟨hbb, -, -⟩
          rw [show prevOf prev (c :: a') = some ((a').getLastD c) from rfl] at hbb
          simp only [boundaryBefore, Bool.not_eq_true'] at hbb
          rw [wordChar_of_isDigit hdigit] at hbb
          simp at hbb
        -- the scan jumps 12 characters, still inside `a`
        rw [show (c :: a') ++ r ++ b = c :: (a' ++ r ++ b) by simp,
          maskFrom_match hmh]
        have hdrop : (a' ++ r ++ b).drop 11 = a'.drop 11 ++ r ++ b := by
          rw [List.append_assoc, List.drop_append_eq_append_drop,
            show 11 - a'.length = 0 by omega, List.drop_zero, ← List.append_assoc]
        rw [hdrop]
        have hne : a'.drop 11 ≠ [] := by
          intro hx
          have := congrArg List.length hx
          simp [List.length_drop] at this
          omega
        have ha'ne : a' ≠ [] := by
          intro hx; rw [hx] at h12; simp at h12
        have hprev : prevOf (some ((c :: (a' ++ r ++ b)).getD 11 c)) (a'.drop 11)
            = prevOf prev (c :: a') := by
          rw [prevOf_drop 11 a' _ hne, prevOf_ne_nil ha'ne _ (some c), prevOf_cons]
        refine containsSeg_append_left _ (ih (a'.drop 11) ?_ _ r b hlen ?_)
        · simp only [List.length_drop]; omega
        · rw [hprev]; exact hm
      · have hmh' : matchAt prev (c :: (a' ++ r ++ b)) = false := Bool.eq_false_iff.mpr hmh
        rw [show (c :: a') ++ r ++ b = c :: (a' ++ r ++ b) by simp,
          maskFrom_copy hmh']
        refine containsSeg_cons c (ih a' ha (some c) r b hlen ?_)
        rw [← prevOf_cons prev]
        exact hm

/-- Claim C9 (confirmed): `mask_aadhaar` is idempotent —
`mask_aadhaar(mask_aadhaar(x)) == mask_aadhaar(x)` for every string `x`. -/
theorem C9_mask_idempotent (x : PyStr) :
    mask_aadhaar (mask_aadhaar x) = mask_aadhaar x :=
  mask_aadhaar_idem x

/-- Claim C4, counterexample: for `"1234123456781 123412345678"` — which
contains the bounded 12-digit run `123412345678` — the masked output
contains `XXXX-XXXX-5678`, yet it still contains the original 12-digit
sequence `123412345678` (as the first twelve characters of the untouched
13-digit token), so "the output … never [contains] the original 12-digit
run" is false as stated. -/
theorem C4_counterexample :
    BoundedRunAt "1234123456781 123412345678".toList
        "1234123456781 ".toList "123412345678".toList [] ∧
      mask_aadhaar "1234123456781 123412345678".toList
          = "1234123456781 XXXX-XXXX-5678".toList ∧
      containsSeg "XXXX-XXXX-5678".toList
          (mask_aadhaar "1234123456781 123412345678".toList) = true ∧
      containsSeg "123412345678".toList
          (mask_aadhaar "1234123456781 123412345678".toList) = true := by
  refine ⟨?_, ?_, ?_, ?_⟩ <;> decide

/-- Claim C4, amended (corrected): for every string containing a 12-digit
run bounded by word boundaries, `mask_aadhaar` replaces each such run with
`XXXX-XXXX-` followed by its last 4 digits, so the output contains
`XXXX-XXXX-<last4>` and contains no 12-digit run bounded by word
boundaries (though the original 12 digits may survive as part of a longer
digit run). -/
theorem C4_mask_bounded_runs (l a r b : PyStr) (h : BoundedRunAt l a r b) :
    containsSeg (maskRun r) (mask_aadhaar l) = true ∧
      ¬ HasBoundedRun (mask_aadhaar l) := by
  constructor
  · have hm := boundedRunAt_matchAt h
    rw [h.1, mask_eq_maskFrom]
    exact maskFrom_hits_run a.length a le_rfl none r b h.2.1 hm
  · exact not_hasBoundedRun_mask l

/-- Witness for `C4_mask_bounded_runs` at a concrete input. -/
theorem C4_witness :
    BoundedRunAt "My number 123412345678 ok".toList "My number ".toList
        "123412345678".toList " ok".toList ∧
      containsSeg (maskRun "123412345678".toList)
          (mask_aadhaar "My number 123412345678 ok".toList) = true ∧
      ¬ HasBoundedRun (mask_aadhaar "My number 123412345678 ok".toList) := by
  have h : BoundedRunAt "My number 123412345678 ok".toList "My number ".toList
      "123412345678".toList " ok".toList := by decide
  exact ⟨h,
    (C4_mask_bounded_runs _ _ _ _ h).1,
    (C4_mask_bounded_runs _ _ _ _ h).2⟩

/-! ## Retrieval — `src/app.py`

`retrieve(query, k)` embeds the query, asks the FAISS index for the `k`
nearest chunks by (squared) L2 distance, and then — independently of the
index's distances — re-encodes each returned chunk and reports the exact
cosine similarity between the normalised query and chunk vectors, plus the
mean of those similarities as `grounding score`.

The sentence-transformer embedder is an opaque external collaborator and
is a parameter `embed : PyStr → Vec`; embedding vectors have exact
rational coordinates.  The FAISS HNSW index is an external collaborator
whose contract (spec §4.3) is: `search(query_vector, k)` returns chunk
ordinals ordered ascending by L2 distance, closest first, ties broken by
insertion order; it is modelled by exact nearest-neighbour search (the
most favourable reading for the spec's ordering claims). -/

/-- Embedding vectors: exact rational coordinates. -/
abbrev Vec := List ℚ

/-- Dot product (`np.dot`). -/
def dotQ (u v : Vec) : ℚ := (List.zipWith (fun a b => a * b) u v).sum

/-- Squared Euclidean norm. -/
def normSq (v : Vec) : ℚ := dotQ v v

/-- Squared L2 distance, the metric of `faiss.IndexHNSWFlat`. -/
def l2distSq (u v : Vec) : ℚ := normSq (List.zipWith (fun a b => a - b) u v)

/-- Exact cosine similarity,
`np.dot(query/‖query‖, (chunk/‖chunk‖).T)` from `retrieve`
(real-valued because of the square roots; division by a zero norm is the
junk value `0` in place of Python's float `nan`). -/
noncomputable def cosineSim (u v : Vec) : ℝ :=
  ((dotQ u v : ℚ) : ℝ) /
    (Real.sqrt ((normSq u : ℚ) : ℝ) * Real.sqrt ((normSq v : ℚ) : ℝ))

/-- The indexed state built by `build_index`: `metadata_store`, the list of
`(filename, chunk)` pairs in insertion order. -/
structure IndexState where
  metadata : List (PyStr × PyStr)

/-- The stored embedding of chunk ordinal `i`. -/
def chunkVec (embed : PyStr → Vec) (st : IndexState) (i : ℕ) : Vec :=
  embed (st.metadata.getD i ([], [])).2

/-- Index proximity order: ordinal `i` precedes `j` when its chunk is
strictly closer to the query in squared L2 distance, ties broken by
insertion order. -/
def proxLE (q : Vec) (embed : PyStr → Vec) (st : IndexState) (i j : ℕ) : Prop :=
  l2distSq q (chunkVec embed st i) < l2distSq q (chunkVec embed st j) ∨
    (l2distSq q (chunkVec embed st i) = l2distSq q (chunkVec embed st j) ∧ i ≤ j)

instance (q : Vec) (embed : PyStr → Vec) (st : IndexState) :
    DecidableRel (proxLE q embed st) := by
  unfold proxLE
  intro i j
  infer_instance

instance (q : Vec) (embed : PyStr → Vec) (st : IndexState) :
    IsTotal ℕ (proxLE q embed st) := by
  constructor
  intro i j
  unfold proxLE
  rcases lt_trichotomy (l2distSq q (chunkVec embed st i))
      (l2distSq q (chunkVec embed st j)) with h | h | h
  · exact Or.inl (Or.inl h)
  · rcases Nat.le_total i j with hij | hij
    · exact Or.inl (Or.inr ⟨h, hij⟩)
    · exact Or.inr (Or.inr ⟨h.symm, hij⟩)
  · exact Or.inr (Or.inl h)

instance (q : Vec) (embed : PyStr → Vec) (st : IndexState) :
    IsTrans ℕ (proxLE q embed st) := by
  constructor
  intro i j m hij hjm
  unfold proxLE at hij hjm ⊢
  rcases hij with h1 | ⟨h1, hle1⟩ <;> rcases hjm with h2 | ⟨h2, hle2⟩
  · exact Or.inl (h1.trans h2)
  · exact Or.inl (h2 ▸ h1)
  · exact Or.inl (h1 ▸ h2)
  · exact Or.inr ⟨h1.trans h2, hle1.trans hle2⟩

/-- `index.search(query_vec, k)` per the vector-index contract: all chunk
ordinals sorted by index proximity. -/
def searchOrder (embed : PyStr → Vec) (st : IndexState) (query : PyStr) : List ℕ :=
  List.insertionSort (proxLE (embed query) embed st) (List.range st.metadata.length)

/-- The ordinals of the (at most) `k` chunks returned by `retrieve`. -/
def retrievedIndices (embed : PyStr → Vec) (st : IndexState) (query : PyStr)
    (k : ℕ) : List ℕ :=
  (searchOrder embed st query).take k

/-- Python `str.split()`: split on whitespace runs, dropping empties. -/
def pySplitWs (s : PyStr) : List PyStr :=
  (List.splitOnP (fun c => c.isWhitespace) s).filter (fun w => w ≠ [])

/-- `" ".join(snippet.split()[:8])` — the citation preview. -/
def first8Words (t : PyStr) : PyStr :=
  List.intercalate [' '] ((pySplitWs t).take 8)

/-- One entry of the `results` list built by `retrieve` (the Python dict
additionally stores the similarity score, modelled separately in
`retrieveSimilarities` because it is real-valued). -/
structure RetrievedChunk where
  doc : PyStr
  citation_preview : PyStr
  full_snippet : PyStr
deriving DecidableEq

/-- The `results` list of `retrieve(query, k)` (index built). -/
def retrieveResults (embed : PyStr → Vec) (st : IndexState) (query : PyStr)
    (k : ℕ) : List RetrievedChunk :=
  (retrievedIndices embed st query k).map (fun i =>
    let md := st.metadata.getD i ([], [])
    ⟨md.1, first8Words md.2, md.2⟩)

/-- The per-result `similarity_score`s of `retrieve(query, k)`, in result
order (Python rounds them to 4 decimals for display). -/
noncomputable def retrieveSimilarities (embed : PyStr → Vec) (st : IndexState)
    (query : PyStr) (k : ℕ) : List ℝ :=
  (retrievedIndices embed st query k).map (fun i =>
    cosineSim (embed query) (chunkVec embed st i))

/-- `avg_grounding_score = float(np.mean(similarities)) if similarities else 0.0`. -/
noncomputable def groundingScore (embed : PyStr → Vec) (st : IndexState)
    (query : PyStr) (k : ℕ) : ℝ :=
  let sims := retrieveSimilarities embed st query k
  if sims = [] then 0 else sims.sum / sims.length

/-- Top-level `retrieve`: raises `RuntimeError("Index not initialized")`
when the index was never built, otherwise returns results and the
grounding score. -/
noncomputable def retrieve (embed : PyStr → Vec) (index : Option IndexState)
    (query : PyStr) (k : ℕ) : Except String (List RetrievedChunk × ℝ) :=
  match index with
  | none => .error "Index not initialized"
  | some st => .ok (retrieveResults embed st query k, groundingScore embed st query k)

theorem dotQ_nil (v : Vec) : dotQ [] v = 0 := rfl

theorem dotQ_nil_right (u : Vec) : dotQ u [] = 0 := by cases u <;> rfl

theorem dotQ_cons (a b : ℚ) (u v : Vec) :
    dotQ (a :: u) (b :: v) = a * b + dotQ u v := by
  simp [dotQ]

theorem normSq_nil : normSq ([] : Vec) = 0 := rfl

theorem normSq_cons (a : ℚ) (v : Vec) : normSq (a :: v) = a * a + normSq v := by
  simp [normSq, dotQ]

theorem normSq_nonneg (v : Vec) : 0 ≤ normSq v := by
  induction v with
  | nil => exact le_refl 0
  | cons a v ih => rw [normSq_cons]; nlinarith [mul_self_nonneg a]

/-- Cauchy–Schwarz for rational coordinate lists. -/
theorem dotQ_sq_le (u : Vec) : ∀ v : Vec, dotQ u v ^ 2 ≤ normSq u * normSq v := by
  induction u with
  | nil =>
    intro v
    rw [dotQ_nil, normSq_nil]
    simp
  | cons a u ih =>
    intro v
    cases v with
    | nil =>
      rw [dotQ_nil_right, normSq_nil]
      simp
    | cons b v =>
      rw [dotQ_cons, normSq_cons, normSq_cons]
      have h := ih v
      have h1 := normSq_nonneg u
      have h2 := normSq_nonneg v
      rcases eq_or_lt_of_le h1 with h0 | h0
      · have hd : dotQ u v = 0 := by nlinarith [sq_nonneg (dotQ u v)]
        rw [hd]
        nlinarith [mul_self_nonneg a, mul_self_nonneg b,
          mul_nonneg (mul_self_nonneg a) h2]
      · nlinarith [sq_nonneg (a * dotQ u v - b * normSq u),
          mul_nonneg (sq_nonneg a) (sub_nonneg.mpr h), h0]

/-- Every reported similarity score is a cosine, hence lies in `[-1, 1]`. -/
theorem abs_cosineSim_le_one (u v : Vec) : |cosineSim u v| ≤ 1 := by
  unfold cosineSim
  have hnu : (0 : ℝ) ≤ ((normSq u : ℚ) : ℝ) := by exact_mod_cast normSq_nonneg u
  have hcs : ((dotQ u v : ℚ) : ℝ) ^ 2 ≤ ((normSq u : ℚ) : ℝ) * ((normSq v : ℚ) : ℝ) := by
    exact_mod_cast dotQ_sq_le u v
  have habs : |((dotQ u v : ℚ) : ℝ)| ≤
      Real.sqrt ((normSq u : ℚ) : ℝ) * Real.sqrt ((normSq v : ℚ) : ℝ) := by
    rw [← Real.sqrt_mul hnu]
    exact Real.abs_le_sqrt hcs
  have hs : (0 : ℝ) ≤ Real.sqrt ((normSq u : ℚ) : ℝ) * Real.sqrt ((normSq v : ℚ) : ℝ) :=
    mul_nonneg (Real.sqrt_nonneg _) (Real.sqrt_nonneg _)
  rcases eq_or_lt_of_le hs with h0 | h0
  · rw [← h0, div_zero, abs_zero]
    exact zero_le_one
  · rw [abs_div, abs_of_pos h0, div_le_one h0]
    exact habs

/-- Mean of a list of values in `[-1, 1]` lies in `[-1, 1]`. -/
theorem mean_bounds {l : List ℝ} (h : ∀ x ∈ l, |x| ≤ 1) (hne : l ≠ []) :
    -1 ≤ l.sum / l.length ∧ l.sum / l.length ≤ 1 := by
  have hlen : (0 : ℝ) < (l.length : ℝ) := by
    have := List.length_pos.mpr hne
    exact_mod_cast this
  have hsum_le : l.sum ≤ (l.length : ℝ) * 1 := by
    have := List.sum_le_card_nsmul l 1 (fun x hx => (abs_le.mp (h x hx)).2)
    simpa [nsmul_eq_mul] using this
  have hsum_ge : (l.length : ℝ) * (-1) ≤ l.sum := by
    have := List.card_nsmul_le_sum l (-1) (fun x hx => (abs_le.mp (h x hx)).1)
    simpa [nsmul_eq_mul] using this
  constructor
  · rw [le_div_iff₀ hlen]; linarith
  · rw [div_le_one hlen]; linarith

theorem l2distSq_cons (a b : ℚ) (u v : Vec) :
    l2distSq (a :: u) (b :: v) = (a - b) * (a - b) + l2distSq u v := by
  simp [l2distSq, normSq, dotQ]

/-- Law-of-cosines expansion of the squared L2 distance (needs equal
dimensions, which the embedder contract guarantees). -/
theorem l2distSq_expand (u : Vec) : ∀ v : Vec, u.length = v.length →
    l2distSq u v = normSq u + normSq v - 2 * dotQ u v := by
  induction u with
  | nil =>
    intro v hv
    have : v = [] := List.length_eq_zero.mp hv.symm
    subst this
    simp [l2distSq, normSq_nil, dotQ_nil]
  | cons a u ih =>
    intro v hv
    cases v with
    | nil => simp at hv
    | cons b v =>
      simp only [List.length_cons, Nat.succ_inj'] at hv
      rw [l2distSq_cons, ih v hv, normSq_cons, normSq_cons, dotQ_cons]
      ring

theorem getD_mem_of_lt {α : Type} {l : List α} {i : ℕ} (h : i < l.length) (d : α) :
    l.getD i d ∈ l := by
  rw [List.getD_eq_getElem?_getD, List.getElem?_eq_getElem h]
  exact List.getElem_mem h

theorem mem_retrievedIndices {embed : PyStr → Vec} {st : IndexState}
    {query : PyStr} {k i : ℕ} (h : i ∈ retrievedIndices embed st query k) :
    i < st.metadata.length := by
  have h1 : i ∈ searchOrder embed st query := List.mem_of_mem_take h
  have h2 : i ∈ List.range st.metadata.length :=
    (List.perm_insertionSort _ _).mem_iff.mp h1
  exact List.mem_range.mp h2

theorem div_le_div_of_le_of_nonneg_den {a b s : ℝ} (h : a ≤ b) (hs : 0 ≤ s) :
    a / s ≤ b / s := by
  rcases eq_or_lt_of_le hs with h0 | h0
  · rw [← h0, div_zero, div_zero]
  · gcongr

/-- Claim C1, amended (corrected): when the index is built, for every query
and k, `retrieve(q, k)` returns at most `k` results, ordered by the
index's proximity order — ascending squared L2 distance between the raw
query embedding and the raw chunk embedding, ties broken by insertion
order.  When all chunk embeddings are unit-norm this order coincides with
descending cosine `similarity_score`; the code, however, indexes raw
(unnormalised) embeddings, so descending-similarity order is not
guaranteed in general (see `C1_counterexample`). -/
theorem C1_retrieve_order (embed : PyStr → Vec) (st : IndexState)
    (query : PyStr) (k : ℕ) :
    (retrieveResults embed st query k).length ≤ k ∧
      List.Pairwise (proxLE (embed query) embed st)
        (retrievedIndices embed st query k) ∧
      ((∀ p ∈ st.metadata, normSq (embed p.2) = 1) →
        (∀ p ∈ st.metadata, (embed p.2).length = (embed query).length) →
        List.Pairwise (fun r s : RetrievedChunk =>
          cosineSim (embed query) (embed s.full_snippet) ≤
            cosineSim (embed query) (embed r.full_snippet))
          (retrieveResults embed st query k)) := by
  have hsorted : List.Pairwise (proxLE (embed query) embed st)
      (retrievedIndices embed st query k) :=
    List.Pairwise.sublist (List.take_sublist _ _)
      (List.sorted_insertionSort (proxLE (embed query) embed st) _)
  refine ⟨?_, hsorted, ?_⟩
  · simp only [retrieveResults, List.length_map, retrievedIndices, List.length_take]
    exact min_le_left _ _
  · intro hnorm hdim
    rw [retrieveResults, List.pairwise_map]
    refine hsorted.imp_of_mem ?_
    intro i j hi hj hR
    have hilt : i < st.metadata.length := mem_retrievedIndices hi
    have hjlt : j < st.metadata.length := mem_retrievedIndices hj
    have hmi := getD_mem_of_lt hilt (([], []) : PyStr × PyStr)
    have hmj := getD_mem_of_lt hjlt (([], []) : PyStr × PyStr)
    have hni : normSq (chunkVec embed st i) = 1 := hnorm _ hmi
    have hnj : normSq (chunkVec embed st j) = 1 := hnorm _ hmj
    have hdi : (embed query).length = (chunkVec embed st i).length := (hdim _ hmi).symm
    have hdj : (embed query).length = (chunkVec embed st j).length := (hdim _ hmj).symm
    have hdist : l2distSq (embed query) (chunkVec embed st i) ≤
        l2distSq (embed query) (chunkVec embed st j) := by
      rcases hR with h | ⟨h, -⟩
      · exact le_of_lt h
      · exact le_of_eq h
    rw [l2distSq_expand _ _ hdi, l2distSq_expand _ _ hdj, hni, hnj] at hdist
    have hdot : dotQ (embed query) (chunkVec embed st j) ≤
        dotQ (embed query) (chunkVec embed st i) := by linarith
    show cosineSim (embed query) (chunkVec embed st j) ≤
      cosineSim (embed query) (chunkVec embed st i)
    unfold cosineSim
    rw [hni, hnj]
    push_cast
    rw [Real.sqrt_one, mul_one]
    exact div_le_div_of_le_of_nonneg_den (by exact_mod_cast hdot) (Real.sqrt_nonneg _)

/-- A concrete embedder exhibiting the ordering counterexample: the
embedder contract (spec §4.2) promises only a deterministic fixed-dimension
encoding, not unit norms. -/
def embedCx : PyStr → Vec := fun s =>
  if s = "q".toList then [1, 0]
  else if s = "a".toList then [1, 1]
  else if s = "b".toList then [10, 0]
  else [0, 0]

/-- Index over two chunks `"a"` and `"b"`. -/
def stCx : IndexState := ⟨[("d1".toList, "a".toList), ("d2".toList, "b".toList)]⟩

theorem embedCx_q : embedCx "q".toList = [1, 0] := rfl

theorem embedCx_a : embedCx "a".toList = [1, 1] := rfl

theorem embedCx_b : embedCx "b".toList = [10, 0] := rfl

theorem stCx_searchOrder : searchOrder embedCx stCx "q".toList = [0, 1] := by
  have hr : proxLE (embedCx "q".toList) embedCx stCx 0 1 := by
    refine Or.inl ?_
    show l2distSq (embedCx "q".toList) (chunkVec embedCx stCx 0) <
      l2distSq (embedCx "q".toList) (chunkVec embedCx stCx 1)
    rw [show chunkVec embedCx stCx 0 = [1, 1] from rfl,
      show chunkVec embedCx stCx 1 = [10, 0] from rfl, embedCx_q]
    norm_num [l2distSq, normSq, dotQ]
  show List.insertionSort _ (List.range stCx.metadata.length) = [0, 1]
  rw [show List.range stCx.metadata.length = [0, 1] from rfl]
  simp only [List.insertionSort, List.orderedInsert]
  rw [if_pos hr]

theorem stCx_indices : retrievedIndices embedCx stCx "q".toList 2 = [0, 1] := by
  show (searchOrder embedCx stCx "q".toList).take 2 = [0, 1]
  rw [stCx_searchOrder]
  decide

/-- Claim C1, counterexample: with an index built over chunks `"a"`, `"b"`
under `embedCx`, `retrieve("q", 2)` returns the chunk `"a"` first (it is
L2-closer: distance² 1 versus 81), yet `"a"`'s similarity score 1/√2 is
strictly below `"b"`'s score 1 — the result list is not sorted by
descending `similarity_score`. -/
theorem C1_counterexample :
    retrieveResults embedCx stCx "q".toList 2 =
        [⟨"d1".toList, "a".toList, "a".toList⟩,
          ⟨"d2".toList, "b".toList, "b".toList⟩] ∧
      cosineSim (embedCx "q".toList) (embedCx "a".toList) <
        cosineSim (embedCx "q".toList) (embedCx "b".toList) := by
  constructor
  · show (retrievedIndices embedCx stCx "q".toList 2).map _ = _
    rw [stCx_indices]
    rfl
  · rw [embedCx_q, embedCx_a, embedCx_b]
    have hd1 : dotQ [1, 0] [1, 1] = 1 := by norm_num [dotQ]
    have hd2 : dotQ [1, 0] [10, 0] = 10 := by norm_num [dotQ]
    have hn1 : normSq [(1 : ℚ), 0] = 1 := by norm_num [normSq, dotQ]
    have hn2 : normSq [(1 : ℚ), 1] = 2 := by norm_num [normSq, dotQ]
    have hn3 : normSq [(10 : ℚ), 0] = 100 := by norm_num [normSq, dotQ]
    unfold cosineSim
    rw [hd1, hd2, hn1, hn2, hn3]
    push_cast
    rw [Real.sqrt_one, one_mul, one_mul]
    have h100 : Real.sqrt 100 = 10 := by
      rw [show (100 : ℝ) = 10 ^ 2 by norm_num, Real.sqrt_sq (by norm_num : (0:ℝ) ≤ 10)]
    rw [h100, show (10 : ℝ) / 10 = 1 by norm_num]
    have h2 : (1 : ℝ) < Real.sqrt 2 := by
      have h := Real.sqrt_lt_sqrt (by norm_num : (0:ℝ) ≤ 1) (by norm_num : (1:ℝ) < 2)
      rwa [Real.sqrt_one] at h
    rw [div_lt_one (lt_trans one_pos h2)]
    exact h2

/-- A unit-norm embedder for the witness of `C1_retrieve_order`. -/
def embedN : PyStr → Vec := fun s =>
  if s = "q".toList then [1, 0]
  else if s = "a".toList then [0, 1]
  else if s = "b".toList then [3/5, 4/5]
  else [1, 0]

/-- Witness for `C1_retrieve_order` at a concrete normalised input. -/
theorem C1_witness :
    (∀ p ∈ stCx.metadata, normSq (embedN p.2) = 1) ∧
      (∀ p ∈ stCx.metadata, (embedN p.2).length = (embedN "q".toList).length) ∧
      (retrieveResults embedN stCx "q".toList 2).length ≤ 2 ∧
      List.Pairwise (fun r s : RetrievedChunk =>
        cosineSim (embedN "q".toList) (embedN s.full_snippet) ≤
          cosineSim (embedN "q".toList) (embedN r.full_snippet))
        (retrieveResults embedN stCx "q".toList 2) := by
  have h1 : ∀ p ∈ stCx.metadata, normSq (embedN p.2) = 1 := by
    intro p hp
    simp only [stCx, List.mem_cons, List.not_mem_nil, or_false] at hp
    rcases hp with rfl | rfl
    · show normSq (embedN "a".toList) = 1
      rw [show embedN "a".toList = [0, 1] from rfl]
      norm_num [normSq, dotQ]
    · show normSq (embedN "b".toList) = 1
      rw [show embedN "b".toList = [3/5, 4/5] from rfl]
      norm_num [normSq, dotQ]
  have h2 : ∀ p ∈ stCx.metadata, (embedN p.2).length = (embedN "q".toList).length := by
    intro p hp
    simp only [stCx, List.mem_cons, List.not_mem_nil, or_false] at hp
    rcases hp with rfl | rfl <;> rfl
  exact ⟨h1, h2, (C1_retrieve_order embedN stCx "q".toList 2).1,
    (C1_retrieve_order embedN stCx "q".toList 2).2.2 h1 h2⟩

/-- Claim C2 (confirmed): the grounding score returned by `retrieve` is
the arithmetic mean of the per-result cosine similarities, lies in
`[-1, 1]`, and equals `0.0` when there are no results (no chunks
indexed). -/
theorem C2_grounding_score (embed : PyStr → Vec) (st : IndexState)
    (query : PyStr) (k : ℕ) :
    (-1 ≤ groundingScore embed st query k ∧ groundingScore embed st query k ≤ 1) ∧
      (st.metadata = [] → groundingScore embed st query k = 0) ∧
      (retrieveSimilarities embed st query k ≠ [] →
        groundingScore embed st query k =
          (retrieveSimilarities embed st query k).sum /
            (retrieveSimilarities embed st query k).length) := by
  refine ⟨?_, ?_, ?_⟩
  · by_cases hne : retrieveSimilarities embed st query k = []
    · simp [groundingScore, hne]
    · have hb : ∀ x ∈ retrieveSimilarities embed st query k, |x| ≤ 1 := by
        intro x hx
        simp only [retrieveSimilarities, List.mem_map] at hx
        obtain ⟨i, -, rfl⟩ := hx
        exact abs_cosineSim_le_one _ _
      have hm := mean_bounds hb hne
      simpa only [groundingScore, hne, if_false] using hm
  · intro hmd
    simp [groundingScore, retrieveSimilarities, retrievedIndices, searchOrder, hmd]
  · intro hne
    simp only [groundingScore, hne, if_false]

/-- Witness for `C2_grounding_score` at concrete inputs (an empty index
for the no-results case, the two-chunk index for the mean case). -/
theorem C2_witness :
    ((⟨[]⟩ : IndexState).metadata = [] ∧
        groundingScore embedCx ⟨[]⟩ "q".toList 3 = 0) ∧
      (retrieveSimilarities embedCx stCx "q".toList 2 ≠ [] ∧
        groundingScore embedCx stCx "q".toList 2 =
          (retrieveSimilarities embedCx stCx "q".toList 2).sum /
            (retrieveSimilarities embedCx stCx "q".toList 2).length) := by
  have h1 : (⟨[]⟩ : IndexState).metadata = [] := rfl
  have h2 : retrieveSimilarities embedCx stCx "q".toList 2 ≠ [] := by
    unfold retrieveSimilarities
    rw [stCx_indices]
    simp
  exact ⟨⟨h1, (C2_grounding_score embedCx ⟨[]⟩ "q".toList 3).2.1 h1⟩,
    ⟨h2, (C2_grounding_score embedCx stCx "q".toList 2).2.2 h2⟩⟩

/-! ## Conversational agent — `src/agent.py`, history — `src/history_db.py`

The Azure chat-completion collaborator and `json.loads` are opaque:
each chat turn carries the raw completion texts (`Option` — `none` when
the call raises) and a parameter modelling JSON parsing.  `history_db`
stores rows in insertion order; `time.time()` timestamps are strictly
increasing across inserts in this model, so `order by ts desc` is list
reversal. -/

/-- Python `str.strip()` (whitespace at both ends). -/
def pyStrip (s : PyStr) : PyStr :=
  ((s.dropWhile Char.isWhitespace).reverse.dropWhile Char.isWhitespace).reverse

/-- Python `str.capitalize()`: first character upper-cased, rest lower-cased. -/
def pyCapitalize (s : PyStr) : PyStr :=
  match s with
  | [] => []
  | c :: cs => c.toUpper :: cs.map Char.toLower

/-- Python `str.find(ch)`: index of the first occurrence (`none` for -1). -/
def pyFind (ch : Char) (s : PyStr) : Option ℕ := s.findIdx? (· = ch)

/-- Python `str.rfind(ch)`: index of the last occurrence (`none` for -1). -/
def pyRFind (ch : Char) (s : PyStr) : Option ℕ :=
  (s.reverse.findIdx? (· = ch)).map (fun i => s.length - 1 - i)

/-- The permissive JSON extraction of `check_needs_clarification_with_llm`:
`json_start = response_text.find(chr(123))`, `json_end = response_text.rfind(chr(125)) + 1`,
and the text is sliced to `[json_start:json_end]` only when
`json_start != -1 and json_end > json_start`. -/
def extractBraces (t : PyStr) : PyStr :=
  match pyFind '\x7b' t, pyRFind '\x7d' t with
  | some i, some j => if i < j + 1 then (t.take (j + 1)).drop i else t
  | some _, none => t
  | none, _ => t

/-- The decision dict built by `check_needs_clarification_with_llm`. -/
structure ClarificationDecision where
  needs_clarification : Bool
  clarification_question : PyStr
  confidence : ℚ
  reason : PyStr
deriving DecidableEq

/-- The fixed generic clarification question of the rule-based fallback. -/
def fallbackQuestion : PyStr :=
  "I don't have enough information to answer your question. Could you provide more details or specify which policy (101 or 201) you're referring to?".toList

/-- The rule-based fallback in the `except` block of
`check_needs_clarification_with_llm`:
`if not grounding or len(grounding) < 50` decide clarification with
confidence 0.3, else proceed with confidence 0.7. -/
def clarificationFallback (grounding : PyStr) : ClarificationDecision :=
  if grounding = [] ∨ grounding.length < 50 then
    ⟨true, fallbackQuestion, 3/10, "Insufficient grounding information".toList⟩
  else
    ⟨false, [], 7/10, "Fallback - sufficient information available".toList⟩

/-- `check_needs_clarification_with_llm`.  `llmRaw` is the collaborator's
completion (`none` when the call raises); `jp` models `json.loads` plus
the subsequent `.get` field extraction (`none` when parsing raises).  The
raw text is stripped, the brace span extracted, and on any failure the
rule-based fallback decides. -/
def check_needs_clarification (jp : PyStr → Option ClarificationDecision)
    (llmRaw : Option PyStr) (grounding : PyStr) : ClarificationDecision :=
  match llmRaw with
  | none => clarificationFallback grounding
  | some raw =>
    match jp (extractBraces (pyStrip raw)) with
    | some d => d
    | none => clarificationFallback grounding

/-- The fixed apology of `generate_response_with_llm`'s fallback. -/
def apologyReply : PyStr :=
  "I apologize, but I'm having trouble generating a response at the moment.".toList

/-- `generate_response_with_llm`: the stripped completion on success; on
collaborator failure `grounding[:500]` when grounding is non-empty, else
the fixed apology. -/
def generate_response (genRaw : Option PyStr) (grounding : PyStr) : PyStr :=
  match genRaw with
  | some t => pyStrip t
  | none => if grounding = [] then apologyReply else grounding.take 500

/-- One `chat_history` row (`history_db.py`). -/
structure Turn where
  session_id : PyStr
  role : PyStr
  text : PyStr
deriving DecidableEq

/-- The SQLite history, rows in insertion (= timestamp) order. -/
structure ChatState where
  history : List Turn
deriving DecidableEq

/-- `history_db.add_turn`. -/
def add_turn (st : ChatState) (session role text : PyStr) : ChatState :=
  ⟨st.history ++ [⟨session, role, text⟩]⟩

/-- `history_db.get_recent`: the session's rows, most recent first
(`order by ts desc`), at most `limit` of them. -/
def get_recent (st : ChatState) (session : PyStr) (limit : ℕ) : List Turn :=
  ((st.history.filter (fun t => t.session_id == session)).reverse).take limit

/-- `build_conversation_context` (`max_turns = 5` at every call site):
the sentinel for an empty history, otherwise a header plus one
`"<Role>: <text>"` line per turn of `history[-max_turns:]`, iterated in
the order `get_recent` returned them (most recent first), and a final
blank line. -/
def build_conversation_context (st : ChatState) (session : PyStr)
    (max_turns : ℕ) : PyStr :=
  let history := get_recent st session max_turns
  if history = [] then "This is the start of the conversation.\n".toList
  else
    let shown := history.drop (history.length - max_turns)
    "Previous conversation:\n".toList ++
      (shown.foldl (fun ctx turn =>
        ctx ++ pyCapitalize turn.role ++ ": ".toList ++ turn.text ++ ['\n']) []) ++
      ['\n']

/-- Modelled from the spec (§4.7 step 4), for comparison with
`build_conversation_context`: the same context string but with the last
`max_turns` turns rendered oldest-first. -/
def specContextOldestFirst (st : ChatState) (session : PyStr)
    (max_turns : ℕ) : PyStr :=
  let recent := get_recent st session max_turns
  if recent = [] then "This is the start of the conversation.\n".toList
  else
    "Previous conversation:\n".toList ++
      (recent.reverse.foldl (fun ctx turn =>
        ctx ++ pyCapitalize turn.role ++ ": ".toList ++ turn.text ++ ['\n']) []) ++
      ['\n']

/-- The pydantic `QueryRequest` bound of `app.py`:
`k: int = Field(default=TOP_K_DEFAULT, ge=1, le=6)`; constructing
`QueryRequest(query=query, k=k)` raises `ValidationError` otherwise. -/
def queryRequestValid (k : ℤ) : Bool := decide (1 ≤ k) && decide (k ≤ 6)

/-- `fastapi.HTTPException(status_code, detail)`. -/
structure HTTPError where
  status : ℕ
  detail : PyStr
deriving DecidableEq

/-- One citation dict of `call_ask`. -/
structure Citation where
  doc : PyStr
  snippet : PyStr
deriving DecidableEq

/-- The `retrieval` dict of a response; `grounding_score` is present on
the `/ask` path and absent on the clarification branch. -/
structure RetrievalStats where
  k : ℤ
  latency_ms : ℕ
  grounding_score : Option ℚ
deriving DecidableEq

/-- The dict returned by `call_ask`. -/
structure AskResponse where
  answer : PyStr
  citations : List Citation
  retrieval : RetrievalStats
deriving DecidableEq

/-- `call_ask`: builds `QueryRequest(query, k)` — whose validation may
raise — then runs the retrieval body (an oracle, which may itself raise,
e.g. `RuntimeError` when the index is absent); every exception becomes
HTTP 502 (`f"/ask error: {e}"`; the validation-error text is abbreviated
to `"validation"` here). -/
def call_ask (ask : PyStr → ℤ → Except PyStr AskResponse)
    (query : PyStr) (k : ℤ) : Except HTTPError AskResponse :=
  if queryRequestValid k then
    match ask query k with
    | .ok r => .ok r
    | .error e => .error ⟨502, "/ask error: ".toList ++ e⟩
  else
    .error ⟨502, "/ask error: validation".toList⟩

/-- `ChatRequest`: `message`, `session_id` (default `"default"`) and
`k : int = DEFAULT_K` — note: no range constraint on `k`. -/
structure ChatRequest where
  message : PyStr
  session_id : PyStr
  k : ℤ

/-- `ChatResponse`. -/
structure ChatResponse where
  reply : PyStr
  citations : List Citation
  retrieval : RetrievalStats
  session_id : PyStr
  used_clarification : Bool
  confidence_score : Option ℚ
deriving DecidableEq

/-- The opaque collaborators of one chat turn: the retrieval body used by
`call_ask`, the two completion calls, and the JSON parser. -/
structure Collab where
  ask : PyStr → ℤ → Except PyStr AskResponse
  clarifyRaw : Option PyStr
  genRaw : Option PyStr
  jp : PyStr → Option ClarificationDecision

/-- The `/agent/chat` endpoint body.  Returns the response (or the HTTP
error raised) together with the final history state — the user turn is
persisted before retrieval, so it survives later failures.  Wall-clock
latency is modelled as 0. -/
def chat (co : Collab) (st : ChatState) (req : ChatRequest) :
    Except HTTPError ChatResponse × ChatState :=
  let user_msg := mask_aadhaar (pyStrip req.message)
  if user_msg = [] then
    (.error ⟨400, "Empty message".toList⟩, st)
  else
    let st1 := add_turn st req.session_id "user".toList user_msg
    let _conversation_context := build_conversation_context st1 req.session_id 5
    match call_ask co.ask user_msg req.k with
    | .error e => (.error e, st1)
    | .ok ask_resp =>
      let answer := ask_resp.answer
      let clar := check_needs_clarification co.jp co.clarifyRaw answer
      if clar.needs_clarification then
        let reply := clar.clarification_question
        let st2 := add_turn st1 req.session_id "assistant".toList reply
        (.ok ⟨reply, ask_resp.citations, ⟨req.k, 0, none⟩, req.session_id,
          true, some clar.confidence⟩, st2)
      else
        let raw_reply := generate_response co.genRaw answer
        let reply := mask_aadhaar raw_reply
        let st2 := add_turn st1 req.session_id "assistant".toList reply
        (.ok ⟨reply, ask_resp.citations, ask_resp.retrieval, req.session_id,
          false, some clar.confidence⟩, st2)

/-- Claim C3 (confirmed): when the clarification collaborator call fails
or its response cannot be parsed, the decision is the deterministic
rule-based fallback, a function of the grounding text only: grounding
shorter than 50 characters (in particular empty) yields
`needs_clarification=true` with the fixed question and confidence 0.3,
otherwise `needs_clarification=false` with confidence 0.7. -/
theorem C3_clarification_fallback (jp : PyStr → Option ClarificationDecision)
    (llmRaw : Option PyStr) (grounding : PyStr)
    (hfail : llmRaw = none ∨
      ∃ raw, llmRaw = some raw ∧ jp (extractBraces (pyStrip raw)) = none) :
    check_needs_clarification jp llmRaw grounding = clarificationFallback grounding ∧
      (grounding.length < 50 →
        clarificationFallback grounding =
          ⟨true, fallbackQuestion, 3/10, "Insufficient grounding information".toList⟩) ∧
      (50 ≤ grounding.length →
        clarificationFallback grounding =
          ⟨false, [], 7/10, "Fallback - sufficient information available".toList⟩) := by
  refine ⟨?_, ?_, ?_⟩
  · rcases hfail with rfl | ⟨raw, rfl, hparse⟩
    · rfl
    · simp [check_needs_clarification, hparse]
  · intro h
    unfold clarificationFallback
    rw [if_pos (Or.inr h)]
  · intro h
    unfold clarificationFallback
    rw [if_neg]
    rintro (rfl | hlt)
    · simp at h
    · omega

/-- Witness for `C3_clarification_fallback`: an unparsable reply over
empty grounding, and a failed call over 63-character grounding. -/
theorem C3_witness :
    check_needs_clarification (fun _ => none) (some "no json in this reply".toList) [] =
        ⟨true, fallbackQuestion, 3/10, "Insufficient grounding information".toList⟩ ∧
      check_needs_clarification (fun _ => none) none
          "This grounding text is definitely longer than fifty characters.".toList =
        ⟨false, [], 7/10, "Fallback - sufficient information available".toList⟩ := by
  constructor
  · have h := C3_clarification_fallback (fun _ => none)
      (some "no json in this reply".toList) [] (Or.inr ⟨_, rfl, rfl⟩)
    exact h.1.trans (h.2.1 (by decide))
  · have h := C3_clarification_fallback (fun _ => none) none
      "This grounding text is definitely longer than fifty characters.".toList
      (Or.inl rfl)
    exact h.1.trans (h.2.2 (by decide))

/-- Claim C8 (confirmed): when the response-generation collaborator call
fails, the generator returns the first 500 characters of a non-empty
grounding (a prefix of it, of length at most 500) and the fixed apology
for empty grounding; and a chat turn whose retrieval succeeded completes
with a response no matter what the two completion collaborators do. -/
theorem C8_generation_fallback (grounding : PyStr) :
    (grounding ≠ [] →
      generate_response none grounding = grounding.take 500 ∧
        (generate_response none grounding).length ≤ 500 ∧
        grounding = generate_response none grounding ++ grounding.drop 500) ∧
      (grounding = [] → generate_response none grounding = apologyReply) ∧
      (∀ (co : Collab) (st : ChatState) (req : ChatRequest) (r : AskResponse),
        mask_aadhaar (pyStrip req.message) ≠ [] →
        call_ask co.ask (mask_aadhaar (pyStrip req.message)) req.k = .ok r →
        ∃ resp st2, chat co st req = (.ok resp, st2)) := by
  refine ⟨?_, ?_, ?_⟩
  · intro h
    simp only [generate_response, if_neg h]
    refine ⟨trivial, ?_, (List.take_append_drop 500 grounding).symm⟩
    simp [List.length_take]
  · intro h
    simp [generate_response, h]
  · intro co st req r hmsg hask
    simp only [chat]
    rw [if_neg hmsg, hask]
    dsimp only
    by_cases hclar :
        (check_needs_clarification co.jp co.clarifyRaw r.answer).needs_clarification = true
    · rw [if_pos hclar]
      exact ⟨_, _, rfl⟩
    · rw [if_neg hclar]
      exact ⟨_, _, rfl⟩

/-- A generic collaborator bundle for witnesses: retrieval succeeds with a
one-character grounding, both completions fail, parsing fails. -/
def coAny : Collab :=
  ⟨fun _ k => .ok ⟨"g".toList, [], ⟨k, 0, some 0⟩⟩, none, none, fun _ => none⟩

/-- Witness for `C8_generation_fallback` at concrete inputs. -/
theorem C8_witness :
    generate_response none "short grounding".toList =
        "short grounding".toList.take 500 ∧
      generate_response none [] = apologyReply ∧
      (chat coAny ⟨[]⟩ ⟨"hi".toList, "s".toList, 3⟩).1.isOk = true := by
  refine ⟨((C8_generation_fallback "short grounding".toList).1 (by decide)).1,
    (C8_generation_fallback []).2.1 rfl, ?_⟩
  obtain ⟨resp, st2, heq⟩ :=
    (C8_generation_fallback []).2.2 coAny ⟨[]⟩ ⟨"hi".toList, "s".toList, 3⟩
      ⟨"g".toList, [], ⟨3, 0, some 0⟩⟩ (by decide) rfl
  rw [heq]
  rfl

/-- A session history: a user turn `"a"`, then an assistant turn `"b"`. -/
def stC6 : ChatState :=
  ⟨[⟨"s".toList, "user".toList, "a".toList⟩,
    ⟨"s".toList, "assistant".toList, "b".toList⟩]⟩

/-- Claim C6 (code_bug): `build_conversation_context` does format the last
5 history turns as one `"<Role>: <text>"` line per turn and returns the
fixed sentinel on empty history, but it renders the turns newest-first —
`get_recent` returns rows `order by ts desc` and the loop keeps that
order — where the spec (and the code's own `history[-max_turns:]` idiom,
which presupposes a chronological list) wants oldest-first. -/
theorem C6_context_order :
    build_conversation_context stC6 "s".toList 5 =
        "Previous conversation:\nAssistant: b\nUser: a\n\n".toList ∧
      specContextOldestFirst stC6 "s".toList 5 =
        "Previous conversation:\nUser: a\nAssistant: b\n\n".toList ∧
      build_conversation_context stC6 "s".toList 5 ≠
        specContextOldestFirst stC6 "s".toList 5 ∧
      build_conversation_context ⟨[]⟩ "s".toList 5 =
        "This is the start of the conversation.\n".toList := by
  refine ⟨by decide, by decide, by decide, by decide⟩

/-- Claim C10 (confirmed): `ChatRequest.k` is not range-validated (any
integer is accepted by the model); `k` outside `1..6` fails only when
`QueryRequest` is constructed inside `call_ask`, surfacing as a generic
502 — after the user turn was already persisted — whereas an empty
message is rejected up front with the distinct 400. -/
theorem C10_k_not_validated (co : Collab) (st : ChatState) (req : ChatRequest) :
    (queryRequestValid req.k = false ↔ (req.k < 1 ∨ 6 < req.k)) ∧
      (queryRequestValid req.k = false →
        mask_aadhaar (pyStrip req.message) ≠ [] →
        (chat co st req).1 = .error ⟨502, "/ask error: validation".toList⟩ ∧
          (chat co st req).2 =
            add_turn st req.session_id "user".toList
              (mask_aadhaar (pyStrip req.message))) ∧
      (mask_aadhaar (pyStrip req.message) = [] →
        chat co st req = (.error ⟨400, "Empty message".toList⟩, st)) := by
  refine ⟨?_, ?_, ?_⟩
  · simp only [queryRequestValid, Bool.and_eq_false_imp]
    constructor
    · intro h
      by_cases h1 : (1 : ℤ) ≤ req.k
      · have := h (by simpa using h1)
        simp only [decide_eq_false_iff_not, not_le] at this
        exact Or.inr this
      · exact Or.inl (by omega)
    · intro h hd
      simp only [decide_eq_true_eq] at hd
      rcases h with h | h
      · omega
      · simp only [decide_eq_false_iff_not, not_le]
        exact h
  · intro hk hmsg
    have hca : call_ask co.ask (mask_aadhaar (pyStrip req.message)) req.k =
        .error ⟨502, "/ask error: validation".toList⟩ := by
      unfold call_ask
      rw [hk]
      simp
    simp only [chat]
    rw [if_neg hmsg, hca]
    exact ⟨rfl, rfl⟩
  · intro hmsg
    simp only [chat]
    rw [if_pos hmsg]

/-- Witness for `C10_k_not_validated`: `k = 7` with a non-empty message
yields 502 with the user turn persisted; an empty message yields 400. -/
theorem C10_witness :
    (queryRequestValid 7 = false ↔ ((7 : ℤ) < 1 ∨ 6 < (7 : ℤ))) ∧
      ((chat coAny ⟨[]⟩ ⟨"hi".toList, "s".toList, 7⟩).1 =
          .error ⟨502, "/ask error: validation".toList⟩ ∧
        (chat coAny ⟨[]⟩ ⟨"hi".toList, "s".toList, 7⟩).2 =
          add_turn ⟨[]⟩ "s".toList "user".toList
            (mask_aadhaar (pyStrip "hi".toList))) ∧
      chat coAny ⟨[]⟩ ⟨"   ".toList, "s".toList, 0⟩ =
        (.error ⟨400, "Empty message".toList⟩, ⟨[]⟩) := by
  exact ⟨(C10_k_not_validated coAny ⟨[]⟩ ⟨"hi".toList, "s".toList, 7⟩).1,
    (C10_k_not_validated coAny ⟨[]⟩ ⟨"hi".toList, "s".toList, 7⟩).2.1 (by decide) (by decide),
    (C10_k_not_validated coAny ⟨[]⟩ ⟨"   ".toList, "s".toList, 0⟩).2.2 (by decide)⟩

/-- A collaborator bundle whose clarification decision carries a 12-digit
number in the question text. -/
def coC5x : Collab :=
  ⟨fun _ k => .ok ⟨"grounding".toList, [], ⟨k, 0, some 0⟩⟩,
    some "x".toList, none,
    fun _ => some ⟨true, "Call 123412345678 now".toList, 1/2, []⟩⟩

/-- Claim C5, counterexample: on the clarification branch the reply is the
decider's question verbatim — here it contains the bounded 12-digit run
`123412345678`, and it is both returned to the caller and stored in
history unmasked (masking would have changed it). -/
theorem C5_counterexample :
    (chat coC5x ⟨[]⟩ ⟨"hello".toList, "s".toList, 3⟩).1.toOption.map
        ChatResponse.reply = some "Call 123412345678 now".toList ∧
      (chat coC5x ⟨[]⟩ ⟨"hello".toList, "s".toList, 3⟩).2.history.map Turn.text =
        ["hello".toList, "Call 123412345678 now".toList] ∧
      mask_aadhaar "Call 123412345678 now".toList ≠
        "Call 123412345678 now".toList := by
  refine ⟨rfl, rfl, by decide⟩

/-- Claim C5, amended (corrected): every successful chat turn stores
exactly two new history rows — the user turn, whose text is the masked
stripped incoming message (a fixed point of masking), and the assistant
turn, whose text equals the returned reply — and on the generated-answer
branch the reply is masked before storage and return; the
clarification-branch reply, however, is the decider's question without
masking (see `C5_counterexample`). -/
theorem C5_masking_applied (co : Collab) (st : ChatState) (req : ChatRequest)
    (resp : ChatResponse) (st2 : ChatState)
    (h : chat co st req = (.ok resp, st2)) :
    st2.history = st.history ++
        [⟨req.session_id, "user".toList, mask_aadhaar (pyStrip req.message)⟩,
          ⟨req.session_id, "assistant".toList, resp.reply⟩] ∧
      mask_aadhaar (mask_aadhaar (pyStrip req.message)) =
        mask_aadhaar (pyStrip req.message) ∧
      (resp.used_clarification = false →
        mask_aadhaar resp.reply = resp.reply) := by
  refine ?_
  by_cases hmsg : mask_aadhaar (pyStrip req.message) = []
  · simp only [chat, if_pos hmsg] at h
    exact absurd (congrArg Prod.fst h) (by simp)
  · simp only [chat, if_neg hmsg] at h
    cases hca : call_ask co.ask (mask_aadhaar (pyStrip req.message)) req.k with
    | error e =>
      rw [hca] at h
      exact absurd (congrArg Prod.fst h) (by simp)
    | ok r =>
      rw [hca] at h
      dsimp only at h
      by_cases hclar :
          (check_needs_clarification co.jp co.clarifyRaw r.answer).needs_clarification = true
      · rw [if_pos hclar] at h
        obtain ⟨h1, h2⟩ := Prod.mk.injEq .. ▸ h
        obtain rfl := (Except.ok.injEq .. ▸ h1 : _ = resp).symm
        subst h2
        refine ⟨by simp [add_turn], mask_aadhaar_idem _, ?_⟩
        intro hfalse
        simp at hfalse
      · rw [if_neg hclar] at h
        obtain ⟨h1, h2⟩ := Prod.mk.injEq .. ▸ h
        obtain rfl := (Except.ok.injEq .. ▸ h1 : _ = resp).symm
        subst h2
        refine ⟨by simp [add_turn], mask_aadhaar_idem _, ?_⟩
        intro _
        exact mask_aadhaar_idem _

/-- A collaborator bundle steering the witness through the
generated-answer branch: retrieval returns sufficient grounding, both
completions fail. -/
def coC5w : Collab :=
  ⟨fun _ k => .ok
      ⟨"This grounding text is definitely longer than fifty characters.".toList,
        [], ⟨k, 0, some 0⟩⟩,
    none, none, fun _ => none⟩

/-- The response of `chat coC5w ⟨[]⟩ ⟨"hi", "s", 3⟩`. -/
def respC5w : ChatResponse :=
  ⟨"This grounding text is definitely longer than fifty characters.".toList,
    [], ⟨3, 0, some 0⟩, "s".toList, false, some (7/10)⟩

/-- The final history of that turn. -/
def stC5w : ChatState :=
  ⟨[⟨"s".toList, "user".toList, "hi".toList⟩,
    ⟨"s".toList, "assistant".toList,
      "This grounding text is definitely longer than fifty characters.".toList⟩]⟩

/-- Witness for `C5_masking_applied` at a concrete turn. -/
theorem C5_witness :
    chat coC5w ⟨[]⟩ ⟨"hi".toList, "s".toList, 3⟩ = (.ok respC5w, stC5w) ∧
      (stC5w.history = (⟨[]⟩ : ChatState).history ++
          [⟨"s".toList, "user".toList, mask_aadhaar (pyStrip "hi".toList)⟩,
            ⟨"s".toList, "assistant".toList, respC5w.reply⟩] ∧
        mask_aadhaar (mask_aadhaar (pyStrip "hi".toList)) =
          mask_aadhaar (pyStrip "hi".toList) ∧
        (respC5w.used_clarification = false →
          mask_aadhaar respC5w.reply = respC5w.reply)) := by
  have h : chat coC5w ⟨[]⟩ ⟨"hi".toList, "s".toList, 3⟩ = (.ok respC5w, stC5w) := by
    rfl
  exact ⟨h, C5_masking_applied coC5w ⟨[]⟩ ⟨"hi".toList, "s".toList, 3⟩ respC5w stC5w h⟩

theorem pyFind_decomp {pre body post : PyStr} {ch : Char}
    (hpre : ∀ c ∈ pre, c ≠ ch) (hh : body.head? = some ch) :
    pyFind ch (pre ++ body ++ post) = some pre.length := by
  obtain ⟨b', rfl⟩ : ∃ b', body = ch :: b' := by
    cases body with
    | nil => simp at hh
    | cons x xs =>
      simp only [List.head?_cons, Option.some.injEq] at hh
      exact ⟨xs, by rw [hh]⟩
  unfold pyFind
  rw [List.append_assoc, List.findIdx?_append]
  have h1 : pre.findIdx? (· = ch) = none := by
    rw [List.findIdx?_eq_none_iff]
    intro x hx
    simp [hpre x hx]
  rw [h1]
  simp [List.findIdx?_cons]

theorem pyRFind_decomp {pre body post : PyStr} {ch : Char}
    (hpost : ∀ c ∈ post, c ≠ ch) (hl : body.getLast? = some ch) :
    pyRFind ch (pre ++ body ++ post) = some (pre.length + body.length - 1) := by
  have hbody_ne : body ≠ [] := by
    intro h; rw [h] at hl; simp at hl
  have hb1 : 1 ≤ body.length := List.length_pos.mpr hbody_ne
  obtain ⟨b', hb⟩ : ∃ b', body.reverse = ch :: b' := by
    cases hbr : body.reverse with
    | nil => exact absurd (List.reverse_eq_nil_iff.mp hbr) hbody_ne
    | cons x xs =>
      have hhd : body.reverse.head? = some x := by rw [hbr]; rfl
      rw [List.head?_reverse, hl] at hhd
      injection hhd with hx
      subst hx
      exact ⟨xs, rfl⟩
  unfold pyRFind
  rw [show (pre ++ body ++ post).reverse =
      post.reverse ++ (body.reverse ++ pre.reverse) by simp]
  rw [List.findIdx?_append]
  have h1 : post.reverse.findIdx? (· = ch) = none := by
    rw [List.findIdx?_eq_none_iff]
    intro x hx
    simp [hpost x (List.mem_reverse.mp hx)]
  rw [h1, hb]
  simp only [Option.none_or, List.cons_append]
  rw [List.findIdx?_cons, if_pos (by simp)]
  simp only [Option.map_some', Option.some.injEq, List.length_append,
    List.length_reverse, Nat.zero_add]
  omega

theorem extractBraces_decomp {pre body post : PyStr}
    (hpre : ∀ c ∈ pre, c ≠ '\x7b') (hpost : ∀ c ∈ post, c ≠ '\x7d')
    (hh : body.head? = some '\x7b') (hl : body.getLast? = some '\x7d') :
    extractBraces (pre ++ body ++ post) = body := by
  have hbody_ne : body ≠ [] := by
    intro h; rw [h] at hh; simp at hh
  have hb1 : 1 ≤ body.length := List.length_pos.mpr hbody_ne
  unfold extractBraces
  rw [pyFind_decomp hpre hh, pyRFind_decomp hpost hl]
  dsimp only
  rw [if_pos (by omega)]
  rw [show pre.length + body.length - 1 + 1 = pre.length + body.length by omega]
  rw [show pre ++ body ++ post = (pre ++ body) ++ post from by simp,
    List.take_left' (by simp), List.drop_left' rfl]

theorem dropWhile_append_nonws {xs ys : PyStr} {c : Char} {t : PyStr}
    (hys : ys = c :: t) (hc : c.isWhitespace = false) :
    (xs ++ ys).dropWhile Char.isWhitespace =
      xs.dropWhile Char.isWhitespace ++ ys := by
  subst hys
  rw [List.dropWhile_append]
  cases he : (xs.dropWhile Char.isWhitespace).isEmpty
  · simp [he]
  · have hx : xs.dropWhile Char.isWhitespace = [] := by
      simpa [List.isEmpty_iff] using he
    simp [he, hx, List.dropWhile_cons, hc]

/-- Stripping around a body with non-whitespace first and last characters
strips only the surrounding commentary. -/
theorem pyStrip_decomp {pre body post : PyStr} {cf cl : Char}
    (hh : body.head? = some cf) (hwf : cf.isWhitespace = false)
    (hl : body.getLast? = some cl) (hwl : cl.isWhitespace = false) :
    pyStrip (pre ++ body ++ post) =
      pre.dropWhile Char.isWhitespace ++ body ++
        (post.reverse.dropWhile Char.isWhitespace).reverse := by
  obtain ⟨b', rfl⟩ : ∃ b', body = cf :: b' := by
    cases body with
    | nil => simp at hh
    | cons x xs =>
      simp only [List.head?_cons, Option.some.injEq] at hh
      exact ⟨xs, by rw [hh]⟩
  obtain ⟨br, hbr⟩ : ∃ br, (cf :: b').reverse = cl :: br := by
    cases hx : (cf :: b').reverse with
    | nil => simp at hx
    | cons y ys =>
      have hhd : (cf :: b').reverse.head? = some y := by rw [hx]; rfl
      rw [List.head?_reverse, hl] at hhd
      injection hhd with hy
      subst hy
      exact ⟨ys, rfl⟩
  have hcb : cf :: b' = br.reverse ++ [cl] := by
    have h := congrArg List.reverse hbr
    simpa using h
  unfold pyStrip
  have hys1 : (cf :: b') ++ post = cf :: (b' ++ post) := by simp
  have e1 : (pre ++ (cf :: b') ++ post).dropWhile Char.isWhitespace
      = pre.dropWhile Char.isWhitespace ++ ((cf :: b') ++ post) := by
    rw [List.append_assoc]
    exact dropWhile_append_nonws hys1 hwf
  rw [e1]
  have e2 : (pre.dropWhile Char.isWhitespace ++ ((cf :: b') ++ post)).reverse
      = post.reverse ++
        (cl :: (br ++ (pre.dropWhile Char.isWhitespace).reverse)) := by
    rw [List.reverse_append, List.reverse_append, hbr]
    simp
  rw [e2, dropWhile_append_nonws rfl hwl, hcb]
  simp

/-- Claim C7 (confirmed): the clarification parser slices the raw response
from its first `\x7b` to its last `\x7d` and parses only that slice, so
brace-free leading and trailing commentary around a well-formed JSON
object never causes a parse failure: whenever the JSON body itself
parses, its decision is used (no fallback). -/
theorem C7_brace_extraction (jp : PyStr → Option ClarificationDecision)
    (pre body post grounding : PyStr)
    (hpre : ∀ c ∈ pre, c ≠ '\x7b') (hpost : ∀ c ∈ post, c ≠ '\x7d')
    (hh : body.head? = some '\x7b') (hl : body.getLast? = some '\x7d') :
    extractBraces (pre ++ body ++ post) = body ∧
      extractBraces (pyStrip (pre ++ body ++ post)) = body ∧
      (∀ d, jp body = some d →
        check_needs_clarification jp (some (pre ++ body ++ post)) grounding = d) := by
  have hwf : ('\x7b' : Char).isWhitespace = false := by decide
  have hwl : ('\x7d' : Char).isWhitespace = false := by decide
  have hstrip := @pyStrip_decomp pre body post '\x7b' '\x7d' hh hwf hl hwl
  have hextract2 : extractBraces (pyStrip (pre ++ body ++ post)) = body := by
    rw [hstrip]
    refine extractBraces_decomp ?_ ?_ hh hl
    · intro c hc
      exact hpre c ((List.dropWhile_sublist Char.isWhitespace).mem hc)
    · intro c hc
      refine hpost c ?_
      have := (List.dropWhile_sublist Char.isWhitespace).mem (List.mem_reverse.mp hc)
      exact List.mem_reverse.mp this
  refine ⟨extractBraces_decomp hpre hpost hh hl, hextract2, ?_⟩
  intro d hparse
  simp only [check_needs_clarification, hextract2, hparse]

/-- Witness for `C7_brace_extraction`: commentary around a JSON object. -/
theorem C7_witness :
    extractBraces
        ("Sure! Here is the JSON: ".toList ++
          "\x7b\"needs_clarification\": false\x7d".toList ++ " Hope that helps.".toList) =
      "\x7b\"needs_clarification\": false\x7d".toList ∧
      check_needs_clarification
          (fun s => if s = "\x7b\"needs_clarification\": false\x7d".toList
            then some ⟨false, [], 9/10, []⟩ else none)
          (some ("Sure! Here is the JSON: ".toList ++
            "\x7b\"needs_clarification\": false\x7d".toList ++ " Hope that helps.".toList))
          [] =
        ⟨false, [], 9/10, []⟩ := by
  have h := C7_brace_extraction
    (fun s => if s = "\x7b\"needs_clarification\": false\x7d".toList
      then some ⟨false, [], 9/10, []⟩ else none)
    "Sure! Here is the JSON: ".toList
    "\x7b\"needs_clarification\": false\x7d".toList
    " Hope that helps.".toList []
    (by decide) (by decide) (by decide) (by decide)
  exact ⟨h.1, h.2.2 ⟨false, [], 9/10, []⟩ (by simp)⟩

end ClaimsRAG
